import Mathlib

/-! Task, future and ThreadHelper of `task.h`.

A shallow embedding of `src/task.h`.

The header is written against Qt.  Three Qt facilities are used and they are
modelled here as the environment of the code, with the semantics documented
by Qt:

* `QThread::start()` begins a thread of control that calls the virtual
  `run()`; if the thread is already running the call does nothing; when
  `run()` returns, the signal `finished()` is emitted.
* `Thread::Thread()` connects `finished()` to the slot `deleteLater()` of the
  same object; the slot call is queued to the event loop of the owning thread.
* `QObject::deleteLater()` posts one deferred-delete event; when the event
  loop of the owning thread delivers it the object is destroyed, which runs
  `~ThreadHelper()`.  A destroyed object receives nothing any more.
* A running event loop (`QEventLoop::exec()`) delivers the posted events in
  the order in which they were posted, and waits for the thread of control
  only while nothing is posted.

All `std::function` values may have side effects.  A task function is
embedded as a state transformer on the program memory `M` that also returns
its value; a callback given to `then` is a transformer on `M`.  The effect of
the thread body on `M` is applied when the body returns.

Every call of the task function, of the start operation, of `deleteLater()`
and of `future::run` is recorded in a trace (`Machine.trace`).
-/

namespace Task

/-! ## Qt side: the `Thread` base object -/

/-- Where the thread of control owned by a `QThread` object stands. -/
inductive Status where
  /-- No thread of control is running: never started, or `run()` has returned. -/
  | idle
  /-- After `QThread::start()` was called; the virtual `run()` is not entered yet. -/
  | spawned
  /-- The thread of control is inside the virtual `run()`. -/
  | inBody
  deriving DecidableEq, Repr

/-- State of `class Thread : public QThread` (task.h 84-100). -/
structure Thread where
  /-- State of the thread of control. -/
  status : Status
  /-- The signal `finished()` was emitted and the queued call of the slot
  `deleteLater()` (the `connect` of task.h 90) is not delivered yet. -/
  finishedPosted : Bool
  /-- A deferred-delete event is posted and not delivered yet. -/
  deletePosted : Bool
  /-- The object has been destroyed. -/
  destroyed : Bool
  /-- Order of the posted events: both a deferred delete and a call of the
  slot `deleteLater()` are posted, and the deferred delete was posted first. -/
  deleteFirst : Bool
  deriving DecidableEq, Repr

/-- Embeds `Thread::Thread()`: a fresh object; nothing runs, nothing is posted. -/
def Thread.new : Thread :=
  { status := Status.idle, finishedPosted := false, deletePosted := false, destroyed := false,
    deleteFirst := false }

/-- Embeds `QThread::start()`: spawn the thread of control unless one is running. -/
def Thread.start (th : Thread) : Thread :=
  if th.status = Status.idle then { th with status := Status.spawned } else th

/-- Embeds `QObject::deleteLater()`: post the deferred-delete event.  The order
flag stays as it is: a delete posted now comes after whatever is posted. -/
def Thread.deleteLater (th : Thread) : Thread :=
  { th with deletePosted := true }

/-! ## The generic variant: `future<T>` and `ThreadHelper<T>` -/

/-- Calls recorded in the trace of a worker/future pair of result type `T`. -/
inductive Ev (T : Type) where
  /-- Recorded when `QThread::start()` was called on the worker (the start operation). -/
  | start
  /-- Recorded when `deleteLater()` was called on the worker (a release request). -/
  | deleteLater
  /-- The task function was invoked. -/
  | call
  /-- The task function returned the value `v`. -/
  | ret (v : T)
  /-- Recorded when `future::run( v )` was called: the continuation slot was invoked with `v`. -/
  | run (v : T)
  deriving DecidableEq, Repr

/-- Embeds `QEventLoop`: only the exit request matters. -/
structure QEventLoop where
  /-- Whether `exit()` was called on this loop. -/
  exited : Bool
  deriving DecidableEq, Repr

/-- Embeds `QEventLoop::exit()`. -/
def QEventLoop.exit (_p : QEventLoop) : QEventLoop := { exited := true }

/-- The locals of a running `future<T>::await()`: `QEventLoop p ; T q ;`. -/
structure AwaitFrame (T : Type) where
  /-- The local event loop `p`. -/
  p : QEventLoop
  /-- The local `q` that receives the result. -/
  q : T

/-- Everything the closures of the header act on: the program memory, the Qt
state of the worker object, the locals of a running `await`, and the trace. -/
structure Machine (M T : Type) where
  /-- Program memory, as seen by task functions and callbacks. -/
  mem : M
  /-- Qt state of the worker object (`this` of the `ThreadHelper`). -/
  thread : Thread
  /-- Locals of the running `await`, if any. -/
  frame : Option (AwaitFrame T)
  /-- Calls recorded so far, oldest first. -/
  trace : List (Ev T)

/-- Append one record to the trace. -/
def Machine.log {M T : Type} (m : Machine M T) (e : Ev T) : Machine M T :=
  { m with trace := m.trace ++ [e] }

/-- Embeds `this->start()` on the worker object. -/
def Machine.start {M T : Type} (m : Machine M T) : Machine M T :=
  { m with thread := m.thread.start, trace := m.trace ++ [Ev.start] }

/-- Embeds `this->deleteLater()` on the worker object. -/
def Machine.deleteLater {M T : Type} (m : Machine M T) : Machine M T :=
  { m with thread := m.thread.deleteLater, trace := m.trace ++ [Ev.deleteLater] }

/-- A user callback `std::function< void( T ) >`: it acts on the program memory only. -/
def onMem {M T : Type} (cb : T → M → M) : T → Machine M T → Machine M T :=
  fun r m => { m with mem := cb r m.mem }

/-- Embeds `class future<T>` (task.h 102-156).  `writes` is a ghost field: the number
of assignments made to `m_function` after construction. -/
structure future (M T : Type) where
  /-- The continuation slot `std::function< void( T ) > m_function`. -/
  m_function : T → Machine M T → Machine M T
  /-- The injected start operation `std::function< void() > m_start`. -/
  m_start : Machine M T → Machine M T
  /-- The injected cancel operation `std::function< void() > m_cancel`. -/
  m_cancel : Machine M T → Machine M T
  /-- The injected get operation `std::function< void( T& ) > m_get`: it
  receives the referenced variable and returns its new content. -/
  m_get : T → Machine M T → T × Machine M T
  /-- Ghost: how many times `m_function` was assigned after construction. -/
  writes : Nat

/-- The constructor `future( start,cancel,get )`; the slot gets its default
member initialiser `[]( T t ){ Q_UNUSED( t ) ; }` (task.h 152). -/
def future.new {M T : Type} (start cancel : Machine M T → Machine M T)
    (get : T → Machine M T → T × Machine M T) : future M T :=
  { m_function := fun _ m => m, m_start := start, m_cancel := cancel, m_get := get, writes := 0 }

/-- Embeds `future<T>::start()` (task.h 139-142). -/
def future.start {M T : Type} (e : future M T) (m : Machine M T) : Machine M T :=
  e.m_start m

/-- Embeds `future<T>::cancel()` (task.h 143-146). -/
def future.cancel {M T : Type} (e : future M T) (m : Machine M T) : Machine M T :=
  e.m_cancel m

/-- Embeds `future<T>::run( T r )` (task.h 147-150): invoke the continuation slot. -/
def future.run {M T : Type} (e : future M T) (r : T) (m : Machine M T) : Machine M T :=
  e.m_function r (m.log (Ev.run r))

/-- Embeds `future<T>::then( function )` (task.h 114-118). -/
def future.then_ {M T : Type} (e : future M T) (function : T → Machine M T → Machine M T)
    (m : Machine M T) : future M T × Machine M T :=
  let e1 := { e with m_function := function, writes := e.writes + 1 }
  (e1, e1.start m)

/-- Embeds `future<T>::get()` (task.h 119-124); `r0` is the content of the
default-initialised local `T r`. -/
def future.get {M T : Type} (e : future M T) (r0 : T) (m : Machine M T) : T × Machine M T :=
  let r := r0
  e.m_get r m

/-- The continuation installed by `await`:
`[ & ]( T r ){ q = std::move( r ) ; p.exit() ; }` (task.h 131). -/
def awaitContinuation {M T : Type} : T → Machine M T → Machine M T :=
  fun r m => { m with frame := m.frame.map (fun fr => { p := fr.p.exit, q := r }) }

/-- Embeds `future<T>::await()` up to and including `this->start()` (task.h 127-133);
`q0` is the content of the default-initialised local `T q`. -/
def future.awaitEnter {M T : Type} (e : future M T) (q0 : T) (m : Machine M T) :
    future M T × Machine M T :=
  let m1 := { m with frame := some { p := { exited := false }, q := q0 } }
  let e1 := { e with m_function := awaitContinuation, writes := e.writes + 1 }
  (e1, e1.start m1)

/-- Embeds `class ThreadHelper<T>` (task.h 158-185); the `Thread` base object is kept
in the `Machine`. -/
structure ThreadHelper (M T : Type) where
  /-- The task function `std::function< T() > m_function`. -/
  m_function : M → T × M
  /-- The embedded future `future<T> m_future`. -/
  m_future : future M T
  /-- The result slot `T m_result`. -/
  m_result : T

/-- The get operation injected by the constructor:
`[ this ]( T& r ){ r = m_function() ; this->deleteLater() ; }` (task.h 166). -/
def ThreadHelper.getOp {M T : Type} (function : M → T × M) :
    T → Machine M T → T × Machine M T :=
  fun _r m =>
    let m1 := m.log Ev.call
    let res := function m1.mem
    let m2 := ({ m1 with mem := res.2 }).log (Ev.ret res.1)
    (res.1, m2.deleteLater)

/-- The constructor `ThreadHelper( function )` (task.h 162-168); `uninit` is
the content of the default-initialised member `T m_result`. -/
def ThreadHelper.new {M T : Type} (function : M → T × M) (uninit : T) : ThreadHelper M T :=
  { m_function := function,
    m_future := future.new Machine.start Machine.deleteLater (ThreadHelper.getOp function),
    m_result := uninit }

/-- A worker/future pair on the heap together with the machine it lives in. -/
structure World (M T : Type) where
  /-- The heap-resident `ThreadHelper<T>`. -/
  obj : ThreadHelper M T
  /-- The machine state. -/
  mach : Machine M T

/-- Embeds `ThreadHelper<T>::Future()` (task.h 169-172). -/
def ThreadHelper.Future {M T : Type} (h : ThreadHelper M T) : future M T := h.m_future

/-- Embeds `ThreadHelper<T>::run()` (task.h 178-181), the thread body
`m_result = m_function()`, from the moment the task function returns. -/
def ThreadHelper.run {M T : Type} (w : World M T) : World M T :=
  let res := w.obj.m_function w.mach.mem
  { obj := { w.obj with m_result := res.1 },
    mach := ({ w.mach with mem := res.2 }).log (Ev.ret res.1) }

/-- Embeds `ThreadHelper<T>::~ThreadHelper()` (task.h 174-177):
`m_future.run( std::move( m_result ) )`, after which the object is gone. -/
def ThreadHelper.destroy {M T : Type} (w : World M T) : World M T :=
  let m := w.obj.m_future.run w.obj.m_result w.mach
  { w with mach := { m with thread := { m.thread with destroyed := true,
                                                      deletePosted := false,
                                                      deleteFirst := false } } }

/-- Embeds `Task::run<T>( function )` (task.h 268-272): allocate the worker and
return (the world holding) its future. -/
def run {M T : Type} (function : M → T × M) (uninit : T) (mem : M) : World M T :=
  { obj := ThreadHelper.new function uninit,
    mach := { mem := mem, thread := Thread.new, frame := none, trace := [] } }

/-- A task function without side effects. -/
def pureFn {M T : Type} (f : Unit → T) : M → T × M := fun mem => (f (), mem)

/-! ### Calls made through the returned reference `future<T>&` -/

/-- Embeds `e.then( cb )` on the future of the world. -/
def World.then_ {M T : Type} (w : World M T) (cb : T → M → M) : World M T :=
  let r := w.obj.Future.then_ (onMem cb) w.mach
  { obj := { w.obj with m_future := r.1 }, mach := r.2 }

/-- Embeds `e.get()` on the future of the world. -/
def World.get {M T : Type} (w : World M T) (r0 : T) : T × World M T :=
  let r := w.obj.Future.get r0 w.mach
  (r.1, { w with mach := r.2 })

/-- Embeds `e.start()` on the future of the world. -/
def World.start {M T : Type} (w : World M T) : World M T :=
  { w with mach := w.obj.Future.start w.mach }

/-- Embeds `e.cancel()` on the future of the world. -/
def World.cancel {M T : Type} (w : World M T) : World M T :=
  { w with mach := w.obj.Future.cancel w.mach }

/-- Embeds `e.run( r )` called directly on the future of the world. -/
def World.run {M T : Type} (w : World M T) (r : T) : World M T :=
  { w with mach := w.obj.Future.run r w.mach }

/-- Embeds `e.await()` up to and including `this->start()`. -/
def World.awaitEnter {M T : Type} (w : World M T) (q0 : T) : World M T :=
  let r := w.obj.Future.awaitEnter q0 w.mach
  { obj := { w.obj with m_future := r.1 }, mach := r.2 }

/-! ### The environment: thread of control and event delivery -/

/-- What the environment can do to a worker. -/
inductive EnvEv where
  /-- The spawned thread of control enters the virtual `run()`. -/
  | enter
  /-- The virtual `run()` returns; `finished()` is emitted, which posts the
  call of the slot `deleteLater()` (behind a deferred delete already posted). -/
  | leave
  /-- The queued call of the slot `deleteLater()` is delivered. -/
  | finished
  /-- The deferred-delete event is delivered: the object is destroyed. -/
  | deferredDelete
  deriving DecidableEq, Repr

/-- One step of the environment; `none` when the event is not enabled.  Either
posted event may be delivered, whatever the order of posting: the executions
built from these steps include those of every event loop. -/
def World.env {M T : Type} (w : World M T) : EnvEv → Option (World M T)
  | EnvEv.enter =>
    if w.mach.thread.destroyed = false ∧ w.mach.thread.status = Status.spawned then
      some { w with mach := { w.mach.log Ev.call with
                              thread := { w.mach.thread with status := Status.inBody } } }
    else none
  | EnvEv.leave =>
    if w.mach.thread.destroyed = false ∧ w.mach.thread.status = Status.inBody then
      let w1 := ThreadHelper.run w
      some { w1 with mach := { w1.mach with
                               thread := { w1.mach.thread with
                                 status := Status.idle,
                                 finishedPosted := true,
                                 deleteFirst :=
                                   if w1.mach.thread.finishedPosted = true
                                   then w1.mach.thread.deleteFirst
                                   else w1.mach.thread.deletePosted } } }
    else none
  | EnvEv.finished =>
    if w.mach.thread.destroyed = false ∧ w.mach.thread.finishedPosted = true then
      some { w with mach := ({ w.mach with
                               thread := { w.mach.thread with finishedPosted := false,
                                                              deleteFirst := false } }).deleteLater }
    else none
  | EnvEv.deferredDelete =>
    if w.mach.thread.destroyed = false ∧ w.mach.thread.deletePosted = true then
      some (ThreadHelper.destroy w)
    else none

/-- A sequence of environment steps; `none` as soon as one is not enabled. -/
def World.envs {M T : Type} (w : World M T) : List EnvEv → Option (World M T)
  | [] => some w
  | e :: es => (w.env e).bind (fun w1 => w1.envs es)

/-- What a running event loop of the owning thread sees next: the posted
event that was posted first; when nothing is posted the loop waits for the
thread of control, which then returns from its body or, if it has not yet,
enters it. -/
def World.envNext {M T : Type} (w : World M T) : Option (World M T) :=
  (if w.mach.thread.deleteFirst = true then
    (w.env EnvEv.deferredDelete).orElse fun _ => w.env EnvEv.finished
   else
    (w.env EnvEv.finished).orElse fun _ => w.env EnvEv.deferredDelete).orElse fun _ =>
  (w.env EnvEv.leave).orElse fun _ =>
  w.env EnvEv.enter

/-- Embeds `QEventLoop::exec()` of the local loop of `await`: until `exit()`
was called, deliver what is posted, in the order of posting, and wait for the
thread of control while nothing is posted.  `none`: the loop has not returned
within `fuel` rounds, or nothing is left that could make it return. -/
def QEventLoop.exec {M T : Type} : Nat → World M T → Option (World M T)
  | 0, _ => none
  | fuel + 1, w =>
    match w.mach.frame with
    | none => none
    | some fr =>
      if fr.p.exited = true then some w
      else match w.envNext with
        | none => none
        | some w1 => QEventLoop.exec fuel w1

/-- Embeds `future<T>::await()` (task.h 125-138): enter, run the local loop, `return q`. -/
def World.await {M T : Type} (w : World M T) (q0 : T) (fuel : Nat) : Option (T × World M T) :=
  match QEventLoop.exec fuel (w.awaitEnter q0) with
  | none => none
  | some w1 =>
    match w1.mach.frame with
    | none => none
    | some fr => some (fr.q, { w1 with mach := { w1.mach with frame := none } })

/-- Embeds `Task::await<T>( function )` (task.h 293-297): `Task::run<T>( function ).await()`. -/
def await {M T : Type} (function : M → T × M) (uninit q0 : T) (mem : M) (fuel : Nat) :
    Option (T × World M T) :=
  (run function uninit mem).await q0 fuel

/-! ### Arbitrary executions of one worker/future pair -/

/-- What can happen to a worker/future pair: a call through the reference
returned by `Task::run`, or a step of the environment. -/
inductive Op (M T : Type) where
  /-- The call `e.then( cb )`. -/
  | then_ (cb : T → M → M)
  /-- The call `e.get()`; `r0` is the content of the default-initialised local. -/
  | get (r0 : T)
  /-- The call `e.await()` up to and including `this->start()`; the local loop is the
  environment steps that follow. -/
  | await (q0 : T)
  /-- The call `e.start()`. -/
  | start
  /-- The call `e.cancel()`. -/
  | cancel
  /-- The call `e.run( r )` called directly. -/
  | run (r : T)
  /-- A step of the environment. -/
  | env (e : EnvEv)

/-- One step of an execution.  A call on a destroyed object is a use after
free and an environment step that is not enabled cannot happen: both give
`none`. -/
def World.step {M T : Type} (w : World M T) : Op M T → Option (World M T)
  | Op.env e => w.env e
  | Op.then_ cb => if w.mach.thread.destroyed = true then none else some (w.then_ cb)
  | Op.get r0 => if w.mach.thread.destroyed = true then none else some (w.get r0).2
  | Op.await q0 => if w.mach.thread.destroyed = true then none else some (w.awaitEnter q0)
  | Op.start => if w.mach.thread.destroyed = true then none else some w.start
  | Op.cancel => if w.mach.thread.destroyed = true then none else some w.cancel
  | Op.run r => if w.mach.thread.destroyed = true then none else some (w.run r)

/-- An execution: the steps one after the other. -/
def World.steps {M T : Type} (w : World M T) : List (Op M T) → Option (World M T)
  | [] => some w
  | op :: ops => (w.step op).bind (fun w1 => w1.steps ops)

/-- Is the operation a direct call of `future::run`? -/
def Op.isRun {M T : Type} : Op M T → Bool
  | Op.run _ => true
  | _ => false

/-- Does every `run` record of the trace come after a `ret` record?
`seen`: a `ret` record was passed already. -/
def returnedBeforeRun {T : Type} : List (Ev T) → Bool → Bool
  | [], _ => true
  | Ev.ret _ :: tr, _ => returnedBeforeRun tr true
  | Ev.run _ :: tr, seen => seen && returnedBeforeRun tr seen
  | _ :: tr, seen => returnedBeforeRun tr seen

/-- The values handed to the continuation slot, in order. -/
def runValues {T : Type} : List (Ev T) → List T
  | [] => []
  | Ev.run v :: tr => v :: runValues tr
  | _ :: tr => runValues tr

/-- How many times the task function was invoked. -/
def callCount {T : Type} : List (Ev T) → Nat
  | [] => 0
  | Ev.call :: tr => callCount tr + 1
  | _ :: tr => callCount tr

/-- How many times the start operation was triggered. -/
def startCount {T : Type} : List (Ev T) → Nat
  | [] => 0
  | Ev.start :: tr => startCount tr + 1
  | _ :: tr => startCount tr

/-! ## The specialisation: `future<void>` and `ThreadHelper<void>` -/

namespace Void

/-- Calls recorded in the trace of a worker/future pair without result. -/
inductive Ev where
  /-- Recorded when `QThread::start()` was called on the worker (the start operation). -/
  | start
  /-- Recorded when `deleteLater()` was called on the worker (a release request). -/
  | deleteLater
  /-- The task function was invoked. -/
  | call
  /-- The task function returned. -/
  | ret
  /-- Recorded when `future::run()` was called: the continuation slot was invoked. -/
  | run
  deriving DecidableEq, Repr

/-- Everything the closures of the specialisation act on; the only local of
a running `await` is `QEventLoop p`. -/
structure Machine (M : Type) where
  /-- Program memory, as seen by task functions and callbacks. -/
  mem : M
  /-- Qt state of the worker object. -/
  thread : Thread
  /-- The local loop of the running `await`, if any. -/
  frame : Option QEventLoop
  /-- Calls recorded so far, oldest first. -/
  trace : List Ev

/-- Append one record to the trace. -/
def Machine.log {M : Type} (m : Machine M) (e : Ev) : Machine M :=
  { m with trace := m.trace ++ [e] }

/-- Embeds `this->start()` on the worker object. -/
def Machine.start {M : Type} (m : Machine M) : Machine M :=
  { m with thread := m.thread.start, trace := m.trace ++ [Ev.start] }

/-- Embeds `this->deleteLater()` on the worker object. -/
def Machine.deleteLater {M : Type} (m : Machine M) : Machine M :=
  { m with thread := m.thread.deleteLater, trace := m.trace ++ [Ev.deleteLater] }

/-- A user callback `std::function< void() >`: it acts on the program memory only. -/
def onMem {M : Type} (cb : M → M) : Machine M → Machine M :=
  fun m => { m with mem := cb m.mem }

/-- Embeds `class future< void >` (task.h 187-235).  `writes` is a ghost field: the
number of assignments made to `m_function` after construction. -/
structure future (M : Type) where
  /-- The continuation slot `std::function< void() > m_function`. -/
  m_function : Machine M → Machine M
  /-- The injected start operation `m_start`. -/
  m_start : Machine M → Machine M
  /-- The injected cancel operation `m_cancel`. -/
  m_cancel : Machine M → Machine M
  /-- The injected get operation `std::function< void() > m_get`. -/
  m_get : Machine M → Machine M
  /-- Ghost: how many times `m_function` was assigned after construction. -/
  writes : Nat

/-- The constructor `future( start,cancel,get )`; the slot gets its default
member initialiser `[](){}` (task.h 231). -/
def future.new {M : Type} (start cancel get : Machine M → Machine M) : future M :=
  { m_function := fun m => m, m_start := start, m_cancel := cancel, m_get := get, writes := 0 }

/-- Embeds `future<void>::start()` (task.h 218-221). -/
def future.start {M : Type} (e : future M) (m : Machine M) : Machine M :=
  e.m_start m

/-- Embeds `future<void>::cancel()` (task.h 226-229). -/
def future.cancel {M : Type} (e : future M) (m : Machine M) : Machine M :=
  e.m_cancel m

/-- Embeds `future<void>::run()` (task.h 222-225): invoke the continuation slot. -/
def future.run {M : Type} (e : future M) (m : Machine M) : Machine M :=
  e.m_function (m.log Ev.run)

/-- Embeds `future<void>::then( function )` (task.h 199-203). -/
def future.then_ {M : Type} (e : future M) (function : Machine M → Machine M)
    (m : Machine M) : future M × Machine M :=
  let e1 := { e with m_function := function, writes := e.writes + 1 }
  (e1, e1.start m)

/-- Embeds `future<void>::get()` (task.h 204-207). -/
def future.get {M : Type} (e : future M) (m : Machine M) : Machine M :=
  e.m_get m

/-- The continuation installed by `await`: `[ & ](){ p.exit() ; }` (task.h 212). -/
def awaitContinuation {M : Type} : Machine M → Machine M :=
  fun m => { m with frame := m.frame.map (fun p => p.exit) }

/-- Embeds `future<void>::await()` up to and including `this->start()` (task.h 210-214). -/
def future.awaitEnter {M : Type} (e : future M) (m : Machine M) : future M × Machine M :=
  let m1 := { m with frame := some { exited := false } }
  let e1 := { e with m_function := awaitContinuation, writes := e.writes + 1 }
  (e1, e1.start m1)

/-- Embeds `class ThreadHelper< void >` (task.h 237-263); there is no result slot. -/
structure ThreadHelper (M : Type) where
  /-- The task function `std::function< void() > m_function`. -/
  m_function : M → M
  /-- The embedded future `future< void > m_future`. -/
  m_future : future M

/-- The get operation injected by the constructor:
`[ this ](){ m_function() ; this->deleteLater() ; }` (task.h 245). -/
def ThreadHelper.getOp {M : Type} (function : M → M) : Machine M → Machine M :=
  fun m =>
    let m1 := m.log Ev.call
    let m2 := ({ m1 with mem := function m1.mem }).log Ev.ret
    m2.deleteLater

/-- The constructor `ThreadHelper( function )` (task.h 241-247). -/
def ThreadHelper.new {M : Type} (function : M → M) : ThreadHelper M :=
  { m_function := function,
    m_future := future.new Machine.start Machine.deleteLater (ThreadHelper.getOp function) }

/-- A worker/future pair on the heap together with the machine it lives in. -/
structure World (M : Type) where
  /-- The heap-resident `ThreadHelper< void >`. -/
  obj : ThreadHelper M
  /-- The machine state. -/
  mach : Machine M

/-- Embeds `ThreadHelper<void>::Future()` (task.h 248-251). -/
def ThreadHelper.Future {M : Type} (h : ThreadHelper M) : future M := h.m_future

/-- Embeds `ThreadHelper<void>::run()` (task.h 257-260), the thread body
`m_function()`, from the moment the task function returns. -/
def ThreadHelper.run {M : Type} (w : World M) : World M :=
  { w with mach := ({ w.mach with mem := w.obj.m_function w.mach.mem }).log Ev.ret }

/-- Embeds `ThreadHelper<void>::~ThreadHelper()` (task.h 253-256): `m_future.run()`,
after which the object is gone. -/
def ThreadHelper.destroy {M : Type} (w : World M) : World M :=
  let m := w.obj.m_future.run w.mach
  { w with mach := { m with thread := { m.thread with destroyed := true,
                                                      deletePosted := false,
                                                      deleteFirst := false } } }

/-- Embeds `Task::run( function )`, the overload without result (task.h 274-277). -/
def run {M : Type} (function : M → M) (mem : M) : World M :=
  { obj := ThreadHelper.new function,
    mach := { mem := mem, thread := Thread.new, frame := none, trace := [] } }

/-- Embeds `e.then( cb )` on the future of the world. -/
def World.then_ {M : Type} (w : World M) (cb : M → M) : World M :=
  let r := w.obj.Future.then_ (onMem cb) w.mach
  { obj := { w.obj with m_future := r.1 }, mach := r.2 }

/-- Embeds `e.get()` on the future of the world. -/
def World.get {M : Type} (w : World M) : World M :=
  { w with mach := w.obj.Future.get w.mach }

/-- Embeds `e.start()` on the future of the world. -/
def World.start {M : Type} (w : World M) : World M :=
  { w with mach := w.obj.Future.start w.mach }

/-- Embeds `e.cancel()` on the future of the world. -/
def World.cancel {M : Type} (w : World M) : World M :=
  { w with mach := w.obj.Future.cancel w.mach }

/-- Embeds `e.run()` called directly on the future of the world. -/
def World.run {M : Type} (w : World M) : World M :=
  { w with mach := w.obj.Future.run w.mach }

/-- Embeds `e.await()` up to and including `this->start()`. -/
def World.awaitEnter {M : Type} (w : World M) : World M :=
  let r := w.obj.Future.awaitEnter w.mach
  { obj := { w.obj with m_future := r.1 }, mach := r.2 }

/-- One step of the environment; `none` when the event is not enabled. -/
def World.env {M : Type} (w : World M) : EnvEv → Option (World M)
  | EnvEv.enter =>
    if w.mach.thread.destroyed = false ∧ w.mach.thread.status = Status.spawned then
      some { w with mach := { w.mach.log Ev.call with
                              thread := { w.mach.thread with status := Status.inBody } } }
    else none
  | EnvEv.leave =>
    if w.mach.thread.destroyed = false ∧ w.mach.thread.status = Status.inBody then
      let w1 := ThreadHelper.run w
      some { w1 with mach := { w1.mach with
                               thread := { w1.mach.thread with
                                 status := Status.idle,
                                 finishedPosted := true,
                                 deleteFirst :=
                                   if w1.mach.thread.finishedPosted = true
                                   then w1.mach.thread.deleteFirst
                                   else w1.mach.thread.deletePosted } } }
    else none
  | EnvEv.finished =>
    if w.mach.thread.destroyed = false ∧ w.mach.thread.finishedPosted = true then
      some { w with mach := ({ w.mach with
                               thread := { w.mach.thread with finishedPosted := false,
                                                              deleteFirst := false } }).deleteLater }
    else none
  | EnvEv.deferredDelete =>
    if w.mach.thread.destroyed = false ∧ w.mach.thread.deletePosted = true then
      some (ThreadHelper.destroy w)
    else none

/-- A sequence of environment steps; `none` as soon as one is not enabled. -/
def World.envs {M : Type} (w : World M) : List EnvEv → Option (World M)
  | [] => some w
  | e :: es => (w.env e).bind (fun w1 => w1.envs es)

/-- What a running event loop of the owning thread sees next: the posted
event that was posted first; when nothing is posted the loop waits for the
thread of control, which then returns from its body or, if it has not yet,
enters it. -/
def World.envNext {M : Type} (w : World M) : Option (World M) :=
  (if w.mach.thread.deleteFirst = true then
    (w.env EnvEv.deferredDelete).orElse fun _ => w.env EnvEv.finished
   else
    (w.env EnvEv.finished).orElse fun _ => w.env EnvEv.deferredDelete).orElse fun _ =>
  (w.env EnvEv.leave).orElse fun _ =>
  w.env EnvEv.enter

/-- Embeds `QEventLoop::exec()` of the local loop of `await`, as for the generic
variant: deliver what is posted, in the order of posting, and wait for the
thread of control while nothing is posted. -/
def loopExec {M : Type} : Nat → World M → Option (World M)
  | 0, _ => none
  | fuel + 1, w =>
    match w.mach.frame with
    | none => none
    | some p =>
      if p.exited = true then some w
      else match w.envNext with
        | none => none
        | some w1 => loopExec fuel w1

/-- Embeds `future<void>::await()` (task.h 208-217): enter, run the local loop, return. -/
def World.await {M : Type} (w : World M) (fuel : Nat) : Option (World M) :=
  match loopExec fuel w.awaitEnter with
  | none => none
  | some w1 =>
    match w1.mach.frame with
    | none => none
    | some _ => some { w1 with mach := { w1.mach with frame := none } }

/-- Embeds `Task::await( function )` without result (task.h 288-291). -/
def await {M : Type} (function : M → M) (mem : M) (fuel : Nat) : Option (World M) :=
  (run function mem).await fuel

/-- Embeds `Task::exec( function )` (task.h 316-319): `Task::run( function ).start()`. -/
def exec {M : Type} (function : M → M) (mem : M) : World M :=
  (run function mem).start

/-- What can happen to a worker/future pair without result. -/
inductive Op (M : Type) where
  /-- The call `e.then( cb )`. -/
  | then_ (cb : M → M)
  /-- The call `e.get()`. -/
  | get
  /-- The call `e.await()` up to and including `this->start()`. -/
  | await
  /-- The call `e.start()`. -/
  | start
  /-- The call `e.cancel()`. -/
  | cancel
  /-- The call `e.run()` called directly. -/
  | run
  /-- A step of the environment. -/
  | env (e : EnvEv)

/-- One step of an execution; `none` for a call on a destroyed object and for
an environment step that is not enabled. -/
def World.step {M : Type} (w : World M) : Op M → Option (World M)
  | Op.env e => w.env e
  | Op.then_ cb => if w.mach.thread.destroyed = true then none else some (w.then_ cb)
  | Op.get => if w.mach.thread.destroyed = true then none else some w.get
  | Op.await => if w.mach.thread.destroyed = true then none else some w.awaitEnter
  | Op.start => if w.mach.thread.destroyed = true then none else some w.start
  | Op.cancel => if w.mach.thread.destroyed = true then none else some w.cancel
  | Op.run => if w.mach.thread.destroyed = true then none else some w.run

/-- An execution: the steps one after the other. -/
def World.steps {M : Type} (w : World M) : List (Op M) → Option (World M)
  | [] => some w
  | op :: ops => (w.step op).bind (fun w1 => w1.steps ops)

end Void

/-! ## Reading the specialisation as the generic variant at the unit type -/

/-- Forget the (unit) values of a trace record. -/
def Ev.erase : Ev Unit → Void.Ev
  | Ev.start => Void.Ev.start
  | Ev.deleteLater => Void.Ev.deleteLater
  | Ev.call => Void.Ev.call
  | Ev.ret _ => Void.Ev.ret
  | Ev.run _ => Void.Ev.run

/-- A task function without result, as a task function of result type `Unit`. -/
def unitFn {M : Type} (fn : M → M) : M → Unit × M := fun mem => ((), fn mem)

/-- An operation on the specialisation, as an operation on the generic
variant at the unit type. -/
def Void.Op.toUnit {M : Type} : Void.Op M → Task.Op M Unit
  | Void.Op.then_ cb => Task.Op.then_ (fun _ => cb)
  | Void.Op.get => Task.Op.get ()
  | Void.Op.await => Task.Op.await ()
  | Void.Op.start => Task.Op.start
  | Void.Op.cancel => Task.Op.cancel
  | Void.Op.run => Task.Op.run ()
  | Void.Op.env e => Task.Op.env e

/-- What is observed of a generic world at the unit type: the trace without
values, the program memory, the Qt state of the worker, and the exit flag of
the local loop of a running `await`. -/
def World.observe {M : Type} (w : World M Unit) :
    List Void.Ev × M × Thread × Option QEventLoop :=
  (w.mach.trace.map Ev.erase, w.mach.mem, w.mach.thread, w.mach.frame.map (fun fr => fr.p))

/-- What is observed of a world of the specialisation. -/
def Void.World.observe {M : Type} (w : Void.World M) :
    List Void.Ev × M × Thread × Option QEventLoop :=
  (w.mach.trace, w.mach.mem, w.mach.thread, w.mach.frame)

/-- The life cycle of a started worker: the thread of control enters the
body, leaves it, the queued `deleteLater()` is delivered, the object is
destroyed. -/
def lifeCycle : List EnvEv :=
  [EnvEv.enter, EnvEv.leave, EnvEv.finished, EnvEv.deferredDelete]

/-! ## Predicates used in the proofs -/

/-- Is the operation the return of the thread body? -/
def Op.isLeave {M T : Type} : Op M T → Bool
  | Op.env EnvEv.leave => true
  | _ => false

/-- What an execution without a return of the thread body and without a
direct call of `future::run` keeps true. -/
structure Unrun {M T : Type} (function : M → T × M) (uninit : T) (w : World M T) : Prop where
  result : w.obj.m_result = uninit
  runs : runValues w.mach.trace = if w.mach.thread.destroyed = true then [uninit] else []
  start_eq : w.obj.m_future.m_start = Machine.start
  cancel_eq : w.obj.m_future.m_cancel = Machine.deleteLater
  get_eq : w.obj.m_future.m_get = ThreadHelper.getOp function
  cont : ∀ r m, (w.obj.m_future.m_function r m).trace = m.trace
    ∧ (w.obj.m_future.m_function r m).thread = m.thread

/-- A machine of the specialisation shows the same as a generic machine at
the unit type. -/
structure MSim {M : Type} (m : Machine M Unit) (v : Void.Machine M) : Prop where
  mem : v.mem = m.mem
  thread : v.thread = m.thread
  frame : v.frame = m.frame.map (fun fr => fr.p)
  trace : v.trace = m.trace.map Ev.erase

/-- A world of the specialisation corresponds to a generic world at the unit
type: the machines show the same and the stored functions act alike. -/
structure WSim {M : Type} (w : World M Unit) (v : Void.World M) : Prop where
  mach : MSim w.mach v.mach
  fn : ∀ mem, (w.obj.m_function mem).2 = v.obj.m_function mem
  cont : ∀ m mv, MSim m mv →
    MSim (w.obj.m_future.m_function () m) (v.obj.m_future.m_function mv)
  start : ∀ m mv, MSim m mv → MSim (w.obj.m_future.m_start m) (v.obj.m_future.m_start mv)
  cancel : ∀ m mv, MSim m mv → MSim (w.obj.m_future.m_cancel m) (v.obj.m_future.m_cancel mv)
  get : ∀ m mv, MSim m mv → MSim (w.obj.m_future.m_get () m).2 (v.obj.m_future.m_get mv)


/-- Is the operation `cancel`? -/
def Op.isCancel {M T : Type} : Op M T → Bool
  | Op.cancel => true
  | _ => false

/-- Does the trace hold a `ret` record? -/
def hasRet {T : Type} : List (Ev T) → Bool
  | [] => false
  | Ev.ret _ :: _ => true
  | _ :: tr => hasRet tr

/-- What an execution without `cancel` and without a direct call of
`future::run` keeps true: no `run` record before a `ret` record, and a
release is posted only after the task function has returned. -/
structure Orderly {M T : Type} (function : M → T × M) (w : World M T) : Prop where
  ordered : returnedBeforeRun w.mach.trace false = true
  posted : w.mach.thread.deletePosted = true ∨ w.mach.thread.finishedPosted = true →
    hasRet w.mach.trace = true
  start_eq : w.obj.m_future.m_start = Machine.start
  get_eq : w.obj.m_future.m_get = ThreadHelper.getOp function
  cont : ∀ r m, (w.obj.m_future.m_function r m).trace = m.trace
    ∧ (w.obj.m_future.m_function r m).thread = m.thread


/-! ## Theorems -/

/-! ### The environment can only follow the life cycle -/

/-- A schedule run in two parts. -/
theorem envs_append {M T : Type} (w : World M T) (es fs : List EnvEv) :
    w.envs (es ++ fs) = (w.envs es).bind (fun w1 => w1.envs fs) := by
  induction es generalizing w with
  | nil => simp [World.envs]
  | cons e es ih =>
    simp only [List.cons_append, World.envs]
    cases h : w.env e with
    | none => simp
    | some w1 => simp [ih]

/-- If after every initial part of a schedule only the next event of the
schedule is enabled, the environment can do nothing but follow the schedule. -/
theorem envs_forced {M T : Type} (w0 : World M T) (sched : List EnvEv)
    (H : ∀ n, n ≤ sched.length → ∀ e, sched[n]? ≠ some e →
      (w0.envs (sched.take n)).bind (fun w1 => w1.env e) = none) :
    ∀ es w, w0.envs es = some w → ∃ n, n ≤ sched.length ∧ es = sched.take n := by
  intro es
  induction es using List.reverseRecOn with
  | nil => intro w _; exact ⟨0, Nat.zero_le _, by simp⟩
  | append_singleton es e ih =>
    intro w hw
    rw [envs_append] at hw
    cases h1 : w0.envs es with
    | none => simp [h1] at hw
    | some w1 =>
      simp only [h1, Option.some_bind, World.envs] at hw
      cases h2 : w1.env e with
      | none => simp [h2] at hw
      | some w2 =>
        obtain ⟨n, hn, rfl⟩ := ih w1 h1
        have hg : sched[n]? = some e := by
          by_contra hne
          have h3 := H n hn e hne
          rw [h1] at h3
          simp [h2] at h3
        have hlt : n < sched.length := by
          by_contra hc
          rw [List.getElem?_eq_none (by omega)] at hg
          cases hg
        refine ⟨n + 1, hlt, ?_⟩
        rw [List.take_succ, hg]
        simp

/-- A schedule run in two parts, for the specialisation. -/
theorem void_envs_append {M : Type} (w : Void.World M) (es fs : List EnvEv) :
    w.envs (es ++ fs) = (w.envs es).bind (fun w1 => w1.envs fs) := by
  induction es generalizing w with
  | nil => simp [Void.World.envs]
  | cons e es ih =>
    simp only [List.cons_append, Void.World.envs]
    cases h : w.env e with
    | none => simp
    | some w1 => simp [ih]

/-- For the specialisation: if after every initial part of a schedule only the
next event of the schedule is enabled, the environment follows the schedule. -/
theorem void_envs_forced {M : Type} (w0 : Void.World M) (sched : List EnvEv)
    (H : ∀ n, n ≤ sched.length → ∀ e, sched[n]? ≠ some e →
      (w0.envs (sched.take n)).bind (fun w1 => w1.env e) = none) :
    ∀ es w, w0.envs es = some w → ∃ n, n ≤ sched.length ∧ es = sched.take n := by
  intro es
  induction es using List.reverseRecOn with
  | nil => intro w _; exact ⟨0, Nat.zero_le _, by simp⟩
  | append_singleton es e ih =>
    intro w hw
    rw [void_envs_append] at hw
    cases h1 : w0.envs es with
    | none => simp [h1] at hw
    | some w1 =>
      simp only [h1, Option.some_bind, Void.World.envs] at hw
      cases h2 : w1.env e with
      | none => simp [h2] at hw
      | some w2 =>
        obtain ⟨n, hn, rfl⟩ := ih w1 h1
        have hg : sched[n]? = some e := by
          by_contra hne
          have h3 := H n hn e hne
          rw [h1] at h3
          simp [h2] at h3
        have hlt : n < sched.length := by
          by_contra hc
          rw [List.getElem?_eq_none (by omega)] at hg
          cases hg
        refine ⟨n + 1, hlt, ?_⟩
        rw [List.take_succ, hg]
        simp

/-! ### Construction and the three consumption protocols -/

/-- C4: `Task::run( f )` only constructs the worker/future pair, for the
overload with a result and for the one without.  Afterwards the trace is
empty (no invocation of `f`, no start, no release request), the memory is
untouched, the thread of control is idle with nothing posted, and the
continuation slot holds the default no-op and was never written. -/
theorem run_only_constructs {M T : Type} (function : M → T × M) (uninit : T) (fn : M → M)
    (mem : M) :
    ((run function uninit mem).mach
        = { mem := mem,
            thread := { status := Status.idle, finishedPosted := false, deletePosted := false,
                        destroyed := false, deleteFirst := false },
            frame := none, trace := [] }
      ∧ (run function uninit mem).obj.m_future.m_function = (fun _ m => m)
      ∧ (run function uninit mem).obj.m_future.writes = 0
      ∧ (run function uninit mem).obj.m_function = function
      ∧ (run function uninit mem).obj.m_result = uninit)
    ∧ ((Void.run fn mem).mach
        = { mem := mem,
            thread := { status := Status.idle, finishedPosted := false, deletePosted := false,
                        destroyed := false, deleteFirst := false },
            frame := none, trace := [] }
      ∧ (Void.run fn mem).obj.m_future.m_function = (fun m => m)
      ∧ (Void.run fn mem).obj.m_future.writes = 0
      ∧ (Void.run fn mem).obj.m_function = fn) := by
  exact ⟨⟨rfl, rfl, rfl, rfl, rfl⟩, rfl, rfl, rfl, rfl⟩

/-- C3: `Task::run( f ).get()` returns the value of `f()`, invokes `f` exactly
once, inline and through the injected get operation, and never triggers the
start operation: the thread of control stays idle.  The only other effect is
that the release of the worker is requested (`deleteLater`); the worker
object itself, result slot and continuation slot included, is unchanged. -/
theorem run_get_inline {M T : Type} (function : M → T × M) (uninit r0 : T) (mem : M) :
    ((run function uninit mem).get r0).1 = (function mem).1
    ∧ ((run function uninit mem).get r0).2.mach
        = { mem := (function mem).2,
            thread := { status := Status.idle, finishedPosted := false, deletePosted := true,
                        destroyed := false, deleteFirst := false },
            frame := none,
            trace := [Ev.call, Ev.ret (function mem).1, Ev.deleteLater] }
    ∧ ((run function uninit mem).get r0).2.obj = (run function uninit mem).obj
    ∧ callCount ((run function uninit mem).get r0).2.mach.trace = 1
    ∧ startCount ((run function uninit mem).get r0).2.mach.trace = 0
    ∧ ∀ (e : future M T) (m : Machine M T), e.get r0 m = e.m_get r0 m := by
  refine ⟨rfl, rfl, rfl, rfl, rfl, fun _ _ => rfl⟩

/-- C2: `Task::run( f ).then( cb )` with nothing else called on the future
invokes `cb` exactly once over the life of the worker, with the value that
`f` produced in the thread body.  The full life cycle runs, ends with the
worker destroyed and nothing enabled any more, and leaves the memory as one
application of `cb` to the value of `f` (taken on the memory left by `f`),
with exactly one `run` record, after the `ret` record.  Every other schedule
the environment can follow is an initial part of that life cycle, so `cb` is
never invoked twice and never before `f` has returned. -/
theorem then_invokes_callback_once {M T : Type} (function : M → T × M) (cb : T → M → M)
    (uninit : T) (mem : M) :
    (∃ w, ((run function uninit mem).then_ cb).envs lifeCycle = some w
        ∧ w.mach.trace = [Ev.start, Ev.call, Ev.ret (function mem).1, Ev.deleteLater,
            Ev.run (function mem).1]
        ∧ w.mach.mem = cb (function mem).1 (function mem).2
        ∧ w.mach.thread.destroyed = true
        ∧ ∀ e, w.env e = none)
    ∧ ∀ es w, ((run function uninit mem).then_ cb).envs es = some w →
        ∃ n, n ≤ 4 ∧ es = lifeCycle.take n
          ∧ w.mach.trace = ([Ev.start, Ev.call, Ev.ret (function mem).1, Ev.deleteLater,
              Ev.run (function mem).1]).take (n + 1)
          ∧ w.mach.mem = (if n = 4 then cb (function mem).1 (function mem).2
              else if 2 ≤ n then (function mem).2 else mem) := by
  constructor
  · refine ⟨_, rfl, rfl, rfl, rfl, ?_⟩
    intro e
    cases e <;> rfl
  · intro es w hw
    obtain ⟨n, hn, rfl⟩ := envs_forced _ lifeCycle (by
      intro n hn e he
      simp only [lifeCycle, List.length] at hn
      interval_cases n <;> cases e <;> first | rfl | exact absurd rfl he) es w hw
    simp only [lifeCycle, List.length] at hn
    refine ⟨n, hn, rfl, ?_⟩
    have key : ∀ k, k ≤ 4 →
        (((run function uninit mem).then_ cb).envs (lifeCycle.take k)).map
          (fun w => (w.mach.trace, w.mach.mem))
        = some (([Ev.start, Ev.call, Ev.ret (function mem).1, Ev.deleteLater,
              Ev.run (function mem).1]).take (k + 1),
            (if k = 4 then cb (function mem).1 (function mem).2
              else if 2 ≤ k then (function mem).2 else mem)) := by
      intro k hk
      interval_cases k <;> rfl
    have h := key n hn
    rw [hw] at h
    simp only [Option.map_some', Option.some.injEq, Prod.mk.injEq] at h
    exact h

/-- Witness for C2 (scenario A): the task function returning 42 and a
callback that pushes its argument on a list; after the life cycle the list
holds 42 once. -/
theorem then_invokes_callback_once_witness :
    (((run (pureFn (fun _ => (42 : Nat))) 0 ([] : List Nat)).then_
        (fun r mem => r :: mem)).envs lifeCycle).map (fun w => w.mach.mem) = some [42] := by
  obtain ⟨w, hw, -⟩ :=
    (then_invokes_callback_once (pureFn (fun _ => (42 : Nat))) (fun r mem => r :: mem) 0
      ([] : List Nat)).1
  obtain ⟨n, hn4, hn, -, hmem⟩ :=
    (then_invokes_callback_once (pureFn (fun _ => (42 : Nat))) (fun r mem => r :: mem) 0
      ([] : List Nat)).2 lifeCycle w hw
  have h4 : n = 4 := by
    have hl := congrArg List.length hn
    simp [lifeCycle] at hl
    omega
  subst h4
  rw [hw]
  simpa [pureFn] using hmem

/-- C1: for every pure task function `f`, `Task::await( f )` returns exactly
`f()`.  With enough rounds of the local loop (five: four deliveries and the
exit test) the call returns `f()`; on the way the thread body stored `f()` in
`m_result`, the release handed that slot to `future::run`, and the
continuation installed by `await` stored it in `q` and left the loop (the
trace and the final result slot say so).  Moreover no other order of
deliveries exists: under every schedule of the environment the local loop is
left only after the full life cycle, and then `q` holds `f()`. -/
theorem await_returns_value {M T : Type} (f : Unit → T) (uninit q0 : T) (mem : M)
    (fuel : Nat) (hfuel : 5 ≤ fuel) :
    (∃ w, await (pureFn f) uninit q0 mem fuel = some (f (), w)
        ∧ w.obj.m_result = f ()
        ∧ w.mach.trace = [Ev.start, Ev.call, Ev.ret (f ()), Ev.deleteLater, Ev.run (f ())]
        ∧ w.mach.mem = mem
        ∧ w.mach.thread.destroyed = true)
    ∧ ∀ es w, ((run (pureFn f) uninit mem).awaitEnter q0).envs es = some w →
        ∃ n, n ≤ 4 ∧ es = lifeCycle.take n
          ∧ w.mach.frame.map (fun fr => (fr.p.exited, fr.q))
              = some (if n = 4 then (true, f ()) else (false, q0)) := by
  constructor
  · obtain ⟨k, rfl⟩ : ∃ k, fuel = k + 5 := ⟨fuel - 5, by omega⟩
    exact ⟨_, rfl, rfl, rfl, rfl, rfl⟩
  · intro es w hw
    obtain ⟨n, hn, rfl⟩ := envs_forced _ lifeCycle (by
      intro n hn e he
      simp only [lifeCycle, List.length] at hn
      interval_cases n <;> cases e <;> first | rfl | exact absurd rfl he) es w hw
    simp only [lifeCycle, List.length] at hn
    refine ⟨n, hn, rfl, ?_⟩
    have key : ∀ k, k ≤ 4 →
        (((run (pureFn f) uninit mem).awaitEnter q0).envs (lifeCycle.take k)).map
          (fun w => w.mach.frame.map (fun fr => (fr.p.exited, fr.q)))
        = some (some (if k = 4 then (true, f ()) else (false, q0))) := by
      intro k hk
      interval_cases k <;> rfl
    have h := key n hn
    rw [hw] at h
    simpa using h

/-- Witness for C1: the task function returning 42, five rounds. -/
theorem await_returns_value_witness :
    5 ≤ 5 ∧ (await (pureFn (fun _ => (42 : Nat))) 0 0 () 5).map Prod.fst = some 42 := by
  refine ⟨by decide, ?_⟩
  obtain ⟨w, hw, -⟩ := (await_returns_value (fun _ => (42 : Nat)) 0 0 () 5 (by decide)).1
  rw [hw]
  rfl

/-- C5: `Task::exec( fn )` constructs the pair and triggers start at once,
without installing a continuation (the slot holds the default no-op and was
never written).  The life cycle that follows invokes `fn` exactly once, in
the thread body, and delivers the completion to the default continuation,
which changes nothing: the memory is `fn` applied once, before and after the
delivery, and no `await` frame exists.  Every schedule the environment can
follow is an initial part of that life cycle. -/
theorem exec_fire_and_forget {M : Type} (fn : M → M) (mem : M) :
    ((Void.exec fn mem).mach
        = { mem := mem,
            thread := { status := Status.spawned, finishedPosted := false, deletePosted := false,
                        destroyed := false, deleteFirst := false },
            frame := none, trace := [Void.Ev.start] }
      ∧ (Void.exec fn mem).obj.m_future.writes = 0
      ∧ (Void.exec fn mem).obj.m_future.m_function = (fun m => m))
    ∧ (∃ w, (Void.exec fn mem).envs lifeCycle = some w
        ∧ w.mach.trace = [Void.Ev.start, Void.Ev.call, Void.Ev.ret, Void.Ev.deleteLater,
            Void.Ev.run]
        ∧ w.mach.mem = fn mem
        ∧ w.mach.frame = none
        ∧ w.mach.thread.destroyed = true
        ∧ ∀ e, w.env e = none)
    ∧ ∀ es w, (Void.exec fn mem).envs es = some w →
        ∃ n, n ≤ 4 ∧ es = lifeCycle.take n
          ∧ w.mach.trace = ([Void.Ev.start, Void.Ev.call, Void.Ev.ret, Void.Ev.deleteLater,
              Void.Ev.run]).take (n + 1)
          ∧ w.mach.mem = (if 2 ≤ n then fn mem else mem)
          ∧ w.mach.frame = none := by
  refine ⟨⟨rfl, rfl, rfl⟩, ⟨_, rfl, rfl, rfl, rfl, rfl, ?_⟩, ?_⟩
  · intro e
    cases e <;> rfl
  · intro es w hw
    obtain ⟨n, hn, rfl⟩ := void_envs_forced _ lifeCycle (by
      intro n hn e he
      simp only [lifeCycle, List.length] at hn
      interval_cases n <;> cases e <;> first | rfl | exact absurd rfl he) es w hw
    simp only [lifeCycle, List.length] at hn
    refine ⟨n, hn, rfl, ?_⟩
    have key : ∀ k, k ≤ 4 →
        ((Void.exec fn mem).envs (lifeCycle.take k)).map
          (fun w => (w.mach.trace, w.mach.mem, w.mach.frame))
        = some (([Void.Ev.start, Void.Ev.call, Void.Ev.ret, Void.Ev.deleteLater,
              Void.Ev.run]).take (k + 1),
            (if 2 ≤ k then fn mem else mem), none) := by
      intro k hk
      interval_cases k <;> rfl
    have h := key n hn
    rw [hw] at h
    simp only [Option.map_some', Option.some.injEq, Prod.mk.injEq] at h
    exact h

/-- Witness for C5 (scenario D): a task function that pushes 1 on a list;
after the life cycle the list holds 1 once. -/
theorem exec_fire_and_forget_witness :
    ((Void.exec (fun mem : List Nat => 1 :: mem) []).envs lifeCycle).map
      (fun w => w.mach.mem) = some [1] := by
  obtain ⟨w, hw, -⟩ := (exec_fire_and_forget (fun mem : List Nat => 1 :: mem) []).2.1
  obtain ⟨n, hn4, hn, -, hmem, -⟩ :=
    (exec_fire_and_forget (fun mem : List Nat => 1 :: mem) []).2.2 lifeCycle w hw
  have h4 : n = 4 := by
    have hl := congrArg List.length hn
    simp [lifeCycle] at hl
    omega
  subst h4
  rw [hw]
  simpa using hmem

/-! ### The continuation slot -/

/-- A step of the environment leaves the embedded future as it is. -/
theorem env_keeps_future {M T : Type} (w w1 : World M T) (e : EnvEv) (h : w.env e = some w1) :
    w1.obj.m_future = w.obj.m_future := by
  cases e <;> simp only [World.env] at h <;> split at h <;> simp at h <;> subst h <;> rfl

/-- The scheduled step of the environment leaves the embedded future as it is. -/
theorem envNext_keeps_future {M T : Type} (w w1 : World M T) (h : w.envNext = some w1) :
    w1.obj.m_future = w.obj.m_future := by
  have key : ∃ e, w.env e = some w1 := by
    unfold World.envNext at h
    cases hd : w.env EnvEv.deferredDelete <;> cases hf : w.env EnvEv.finished <;>
      cases hl : w.env EnvEv.leave <;> cases he : w.env EnvEv.enter <;>
      simp only [hd, hf, hl, he] at h <;> split at h <;>
      simp only [Option.orElse, Option.some.injEq] at h <;>
      first
        | exact absurd h (by simp)
        | exact ⟨EnvEv.deferredDelete, hd.trans (congrArg some h)⟩
        | exact ⟨EnvEv.finished, hf.trans (congrArg some h)⟩
        | exact ⟨EnvEv.leave, hl.trans (congrArg some h)⟩
        | exact ⟨EnvEv.enter, he.trans (congrArg some h)⟩
  obtain ⟨e, he⟩ := key
  exact env_keeps_future _ _ _ he

/-- The local loop of `await` leaves the embedded future as it is. -/
theorem exec_keeps_future {M T : Type} (fuel : Nat) (w w1 : World M T)
    (h : QEventLoop.exec fuel w = some w1) : w1.obj.m_future = w.obj.m_future := by
  induction fuel generalizing w with
  | zero => simp [QEventLoop.exec] at h
  | succ n ih =>
    simp only [QEventLoop.exec] at h
    split at h
    · simp at h
    · split at h
      · simp at h; subst h; rfl
      · split at h
        · simp at h
        · rename_i w2 h2
          rw [ih _ h, envNext_keeps_future _ _ h2]

/-- After `await` returned the embedded future is the one `await` set up on entry. -/
theorem await_keeps_future {M T : Type} (w : World M T) (q0 : T) (fuel : Nat)
    (res : T × World M T) (h : w.await q0 fuel = some res) :
    res.2.obj.m_future = (w.awaitEnter q0).obj.m_future := by
  simp only [World.await] at h
  split at h
  · simp at h
  · rename_i w1 h1
    split at h
    · simp at h
    · simp at h
      subst h
      exact exec_keeps_future _ _ w1 h1

/-- For the specialisation: a step of the environment leaves the embedded future as it is. -/
theorem void_env_keeps_future {M : Type} (w w1 : Void.World M) (e : EnvEv)
    (h : w.env e = some w1) : w1.obj.m_future = w.obj.m_future := by
  cases e <;> simp only [Void.World.env] at h <;> split at h <;> simp at h <;> subst h <;> rfl

/-- For the specialisation: the scheduled step of the environment leaves the embedded future as it is. -/
theorem void_envNext_keeps_future {M : Type} (w w1 : Void.World M) (h : w.envNext = some w1) :
    w1.obj.m_future = w.obj.m_future := by
  have key : ∃ e, w.env e = some w1 := by
    unfold Void.World.envNext at h
    cases hd : w.env EnvEv.deferredDelete <;> cases hf : w.env EnvEv.finished <;>
      cases hl : w.env EnvEv.leave <;> cases he : w.env EnvEv.enter <;>
      simp only [hd, hf, hl, he] at h <;> split at h <;>
      simp only [Option.orElse, Option.some.injEq] at h <;>
      first
        | exact absurd h (by simp)
        | exact ⟨EnvEv.deferredDelete, hd.trans (congrArg some h)⟩
        | exact ⟨EnvEv.finished, hf.trans (congrArg some h)⟩
        | exact ⟨EnvEv.leave, hl.trans (congrArg some h)⟩
        | exact ⟨EnvEv.enter, he.trans (congrArg some h)⟩
  obtain ⟨e, he⟩ := key
  exact void_env_keeps_future _ _ _ he

/-- For the specialisation: the local loop of `await` leaves the embedded future as it is. -/
theorem void_loopExec_keeps_future {M : Type} (fuel : Nat) (w w1 : Void.World M)
    (h : Void.loopExec fuel w = some w1) : w1.obj.m_future = w.obj.m_future := by
  induction fuel generalizing w with
  | zero => simp [Void.loopExec] at h
  | succ n ih =>
    simp only [Void.loopExec] at h
    split at h
    · simp at h
    · split at h
      · simp at h; subst h; rfl
      · split at h
        · simp at h
        · rename_i w2 h2
          rw [ih _ h, void_envNext_keeps_future _ _ h2]

/-- For the specialisation: after `await` returned the embedded future is the one set up on entry. -/
theorem void_await_keeps_future {M : Type} (w : Void.World M) (fuel : Nat)
    (res : Void.World M) (h : w.await fuel = some res) :
    res.obj.m_future = w.awaitEnter.obj.m_future := by
  simp only [Void.World.await] at h
  split at h
  · simp at h
  · rename_i w1 h1
    split at h
    · simp at h
    · simp at h
      subst h
      exact void_loopExec_keeps_future _ _ w1 h1

/-- C9, the claim as stated fails for `get`: consuming a fresh future with
`get` does not write the continuation slot once; the count of writes stays
at zero. -/
theorem get_leaves_slot_unwritten :
    ¬ (((run (pureFn (fun _ => (42 : Nat))) 7 (0 : Nat)).get 0).2.obj.m_future.writes = 1) := by
  decide

/-- C9 as amended: `then` and `await` each write the continuation slot
exactly once, and what they write is the given callback (`then`) and the
continuation of `await` that stores the result and leaves the local loop
(`await`, also as a whole, local loop included, whenever it returns); `get`,
`start`, `cancel`, `run` and every step of the environment leave the whole
future, the slot included, as it is.  On a freshly created future the count
of writes is therefore 1 after `then`, 1 after `await` and 0 after `get`,
and after `get` the slot still holds the default no-op.  The same holds for
the specialisation without result. -/
theorem slot_written_by_then_and_await_only {M T : Type} (w : World M T) (cb : T → M → M)
    (r0 q0 r : T) (v : Void.World M) (cbv : M → M) (e : EnvEv) (fuel : Nat) :
    ((w.then_ cb).obj.m_future.writes = w.obj.m_future.writes + 1
      ∧ (w.then_ cb).obj.m_future.m_function = onMem cb
      ∧ (w.awaitEnter q0).obj.m_future.writes = w.obj.m_future.writes + 1
      ∧ (w.awaitEnter q0).obj.m_future.m_function = awaitContinuation
      ∧ (w.await q0 fuel).map (fun res => res.2.obj.m_future.writes)
          = (w.await q0 fuel).map (fun _ => w.obj.m_future.writes + 1)
      ∧ (w.await q0 fuel).map (fun res => res.2.obj.m_future.m_function)
          = (w.await q0 fuel).map (fun _ => awaitContinuation))
    ∧ ((w.get r0).2.obj.m_future = w.obj.m_future
      ∧ w.start.obj.m_future = w.obj.m_future
      ∧ w.cancel.obj.m_future = w.obj.m_future
      ∧ (w.run r).obj.m_future = w.obj.m_future
      ∧ (w.env e).map (fun w1 => w1.obj.m_future) = (w.env e).map (fun _ => w.obj.m_future))
    ∧ (∀ (function : M → T × M) (uninit : T) (mem : M),
        (run function uninit mem).obj.m_future.writes = 0
        ∧ ((run function uninit mem).then_ cb).obj.m_future.writes = 1
        ∧ ((run function uninit mem).awaitEnter q0).obj.m_future.writes = 1
        ∧ ((run function uninit mem).get r0).2.obj.m_future.writes = 0
        ∧ ((run function uninit mem).get r0).2.obj.m_future.m_function = (fun _ m => m))
    ∧ ((v.then_ cbv).obj.m_future.writes = v.obj.m_future.writes + 1
      ∧ (v.then_ cbv).obj.m_future.m_function = Void.onMem cbv
      ∧ v.awaitEnter.obj.m_future.writes = v.obj.m_future.writes + 1
      ∧ v.awaitEnter.obj.m_future.m_function = Void.awaitContinuation
      ∧ (v.await fuel).map (fun res => res.obj.m_future.writes)
          = (v.await fuel).map (fun _ => v.obj.m_future.writes + 1)
      ∧ (v.await fuel).map (fun res => res.obj.m_future.m_function)
          = (v.await fuel).map (fun _ => Void.awaitContinuation))
    ∧ (v.get.obj.m_future = v.obj.m_future
      ∧ v.start.obj.m_future = v.obj.m_future
      ∧ v.cancel.obj.m_future = v.obj.m_future
      ∧ v.run.obj.m_future = v.obj.m_future
      ∧ (v.env e).map (fun v1 => v1.obj.m_future) = (v.env e).map (fun _ => v.obj.m_future))
    ∧ (∀ (fn : M → M) (mem : M),
        (Void.run fn mem).obj.m_future.writes = 0
        ∧ ((Void.run fn mem).then_ cbv).obj.m_future.writes = 1
        ∧ (Void.run fn mem).awaitEnter.obj.m_future.writes = 1
        ∧ (Void.run fn mem).get.obj.m_future.writes = 0
        ∧ (Void.run fn mem).get.obj.m_future.m_function = (fun m => m)) := by
  refine ⟨⟨rfl, rfl, rfl, rfl, ?_, ?_⟩, ⟨rfl, rfl, rfl, rfl, ?_⟩,
    fun _ _ _ => ⟨rfl, rfl, rfl, rfl, rfl⟩,
    ⟨rfl, rfl, rfl, rfl, ?_, ?_⟩, ⟨rfl, rfl, rfl, rfl, ?_⟩,
    fun _ _ => ⟨rfl, rfl, rfl, rfl, rfl⟩⟩
  · cases h : w.await q0 fuel with
    | none => rfl
    | some res =>
      simp only [Option.map_some', Option.some.injEq]
      rw [await_keeps_future w q0 fuel res h]
      rfl
  · cases h : w.await q0 fuel with
    | none => rfl
    | some res =>
      simp only [Option.map_some', Option.some.injEq]
      rw [await_keeps_future w q0 fuel res h]
      rfl
  · cases h : w.env e with
    | none => rfl
    | some w1 =>
      simp only [Option.map_some', Option.some.injEq]
      exact env_keeps_future _ _ _ h
  · cases h : v.await fuel with
    | none => rfl
    | some res =>
      simp only [Option.map_some', Option.some.injEq]
      rw [void_await_keeps_future v fuel res h]
      rfl
  · cases h : v.await fuel with
    | none => rfl
    | some res =>
      simp only [Option.map_some', Option.some.injEq]
      rw [void_await_keeps_future v fuel res h]
      rfl
  · cases h : v.env e with
    | none => rfl
    | some v1 =>
      simp only [Option.map_some', Option.some.injEq]
      exact void_env_keeps_future _ _ _ h

/-! ### Release without a result -/

/-- The values handed to the continuation, over an appended trace. -/
theorem runValues_append {T : Type} (a b : List (Ev T)) :
    runValues (a ++ b) = runValues a ++ runValues b := by
  induction a with
  | nil => rfl
  | cons x a ih => cases x <;> simp [runValues, ih]

/-- The call `QThread::start()` does not touch the destroyed flag. -/
theorem thread_start_destroyed (th : Thread) : th.start.destroyed = th.destroyed := by
  unfold Thread.start; split <;> rfl

/-- One step that is neither the return of the thread body nor a direct `run` keeps `Unrun`. -/
theorem unrun_step {M T : Type} {function : M → T × M} {uninit : T} {w w1 : World M T}
    (hI : Unrun function uninit w) (op : Op M T) (hl : op.isLeave = false)
    (hr : op.isRun = false) (h : w.step op = some w1) : Unrun function uninit w1 := by
  obtain ⟨h1, h2, h3, h4, h5, h6⟩ := hI
  cases op with
  | run r => simp [Op.isRun] at hr
  | then_ cb =>
    simp only [World.step] at h
    split at h
    · simp at h
    · rename_i hd
      simp only [Option.some.injEq] at h
      subst h
      simp only [Bool.not_eq_true] at hd
      refine ⟨h1, ?_, h3, h4, h5, fun _ _ => ⟨rfl, rfl⟩⟩
      simp [World.then_, future.then_, future.start, ThreadHelper.Future, h3, Machine.start,
        runValues_append, runValues, thread_start_destroyed, h2, hd]
  | get r0 =>
    simp only [World.step] at h
    split at h
    · simp at h
    · rename_i hd
      simp only [Option.some.injEq] at h
      subst h
      simp only [Bool.not_eq_true] at hd
      refine ⟨h1, ?_, h3, h4, h5, h6⟩
      simp [World.get, future.get, ThreadHelper.Future, h5, ThreadHelper.getOp, Machine.log,
        Machine.deleteLater, Thread.deleteLater, runValues_append, runValues, h2, hd]
  | await q0 =>
    simp only [World.step] at h
    split at h
    · simp at h
    · rename_i hd
      simp only [Option.some.injEq] at h
      subst h
      simp only [Bool.not_eq_true] at hd
      refine ⟨h1, ?_, h3, h4, h5, fun _ _ => ⟨rfl, rfl⟩⟩
      simp [World.awaitEnter, future.awaitEnter, future.start, ThreadHelper.Future, h3,
        Machine.start, runValues_append, runValues, thread_start_destroyed, h2, hd]
  | start =>
    simp only [World.step] at h
    split at h
    · simp at h
    · rename_i hd
      simp only [Option.some.injEq] at h
      subst h
      simp only [Bool.not_eq_true] at hd
      refine ⟨h1, ?_, h3, h4, h5, h6⟩
      simp [World.start, future.start, ThreadHelper.Future, h3,
        Machine.start, runValues_append, runValues, thread_start_destroyed, h2, hd]
  | cancel =>
    simp only [World.step] at h
    split at h
    · simp at h
    · rename_i hd
      simp only [Option.some.injEq] at h
      subst h
      simp only [Bool.not_eq_true] at hd
      refine ⟨h1, ?_, h3, h4, h5, h6⟩
      simp [World.cancel, future.cancel, ThreadHelper.Future, h4,
        Machine.deleteLater, Thread.deleteLater, runValues_append, runValues, h2, hd]
  | env e =>
    cases e with
    | leave => simp [Op.isLeave] at hl
    | enter =>
      simp only [World.step, World.env] at h
      split at h
      · rename_i hd
        simp only [Option.some.injEq] at h
        subst h
        refine ⟨h1, ?_, h3, h4, h5, h6⟩
        simp [Machine.log, runValues_append, runValues, h2, hd.1]
      · simp at h
    | finished =>
      simp only [World.step, World.env] at h
      split at h
      · rename_i hd
        simp only [Option.some.injEq] at h
        subst h
        refine ⟨h1, ?_, h3, h4, h5, h6⟩
        simp [Machine.deleteLater, Thread.deleteLater, runValues_append, runValues, h2, hd.1]
      · simp at h
    | deferredDelete =>
      simp only [World.step, World.env] at h
      split at h
      · rename_i hd
        simp only [Option.some.injEq] at h
        subst h
        refine ⟨h1, ?_, h3, h4, h5, h6⟩
        simp [ThreadHelper.destroy, future.run, (h6 _ _).1, Machine.log, runValues_append,
          runValues, h2, hd.1, h1]
      · simp at h

/-- An execution without return of the thread body and without direct `run` keeps `Unrun`. -/
theorem unrun_steps {M T : Type} {function : M → T × M} {uninit : T} (ops : List (Op M T))
    (hops : ∀ op ∈ ops, op.isLeave = false ∧ op.isRun = false) :
    ∀ {w w1 : World M T}, Unrun function uninit w → w.steps ops = some w1 →
      Unrun function uninit w1 := by
  induction ops with
  | nil =>
    intro w w1 hI h
    simp only [World.steps, Option.some.injEq] at h
    subst h
    exact hI
  | cons op ops ih =>
    intro w w1 hI h
    simp only [World.steps] at h
    cases h2 : w.step op with
    | none => simp [h2] at h
    | some w2 =>
      rw [h2] at h
      have hop := hops op (List.mem_cons_self _ _)
      exact ih (fun o ho => hops o (List.mem_cons_of_mem _ ho))
        (unrun_step hI op hop.1 hop.2 h2) h

/-- A freshly created worker satisfies `Unrun`. -/
theorem unrun_fresh {M T : Type} (function : M → T × M) (uninit : T) (mem : M) :
    Unrun function uninit (run function uninit mem) :=
  ⟨rfl, rfl, rfl, rfl, rfl, fun _ _ => ⟨rfl, rfl⟩⟩

/-- C10: a worker released without its thread body having returned still
calls `future::run` exactly once, with the never-assigned content `uninit` of
its result slot.  After `get()`: the value of `f` went to the caller only, the
result slot still holds `uninit`, and the release hands `uninit` to the
continuation.  After `cancel()` on a never-started future: `f` is not invoked
at all (no `call` record, memory untouched) and the release hands `uninit`
to the continuation.  In general, in every execution without a return of the
thread body (and without direct calls of `run`), the result slot holds
`uninit` and the values handed to the continuation are `[uninit]` once the
worker is destroyed and none before. -/
theorem release_without_body_hands_never_assigned {M T : Type} (function : M → T × M)
    (uninit r0 : T) (mem : M) :
    (((run function uninit mem).get r0).2.obj.m_result = uninit
      ∧ ∃ w, ((run function uninit mem).steps [Op.get r0, Op.env EnvEv.deferredDelete]) = some w
        ∧ w.mach.trace = [Ev.call, Ev.ret (function mem).1, Ev.deleteLater, Ev.run uninit]
        ∧ w.obj.m_result = uninit)
    ∧ (∃ w, ((run function uninit mem).steps [Op.cancel, Op.env EnvEv.deferredDelete]) = some w
        ∧ w.mach.trace = [Ev.deleteLater, Ev.run uninit]
        ∧ w.mach.mem = mem
        ∧ w.obj.m_result = uninit)
    ∧ ∀ (ops : List (Op M T)) (w : World M T),
        (∀ op ∈ ops, op.isLeave = false ∧ op.isRun = false) →
        (run function uninit mem).steps ops = some w →
        w.obj.m_result = uninit
        ∧ runValues w.mach.trace = (if w.mach.thread.destroyed = true then [uninit] else []) := by
  refine ⟨⟨rfl, _, rfl, rfl, rfl⟩, ⟨_, rfl, rfl, rfl, rfl⟩, ?_⟩
  intro ops w hops hw
  have hI := unrun_steps ops hops (unrun_fresh function uninit mem) hw
  exact ⟨hI.result, hI.runs⟩

/-- Witness for C10: `cancel()` on a never-started future whose result slot
holds 7, then the release: the continuation is handed 7, not 42. -/
theorem release_without_body_hands_never_assigned_witness :
    ((run (pureFn (fun _ => (42 : Nat))) 7 (0 : Nat)).steps
        [Op.cancel, Op.env EnvEv.deferredDelete]).map (fun w => runValues w.mach.trace)
      = some [7] := by
  obtain ⟨w, hw, -⟩ :=
    (release_without_body_hands_never_assigned (pureFn (fun _ => (42 : Nat))) 7 0 (0 : Nat)).2.1
  have h := ((release_without_body_hands_never_assigned (pureFn (fun _ => (42 : Nat))) 7 0
    (0 : Nat)).2.2 [Op.cancel, Op.env EnvEv.deferredDelete] w
      (by intro op hop; simp at hop; rcases hop with rfl | rfl <;> exact ⟨rfl, rfl⟩) hw).2
  have hd : w.mach.thread.destroyed = true := by
    have h2 : ((run (pureFn (fun _ => (42 : Nat))) 7 (0 : Nat)).steps
        [Op.cancel, Op.env EnvEv.deferredDelete]).map (fun w => w.mach.thread.destroyed)
          = some true := rfl
    rw [hw] at h2
    simpa using h2
  rw [hw, Option.map_some', h, if_pos hd]

/-- C6, the code at the failing input: `e.then( cb )`, then `e.cancel()`, then
delivery of the deferred delete.  The callback is invoked with the
never-assigned content of the result slot (7 here) although the task
function has not returned (no `ret` record; the thread of control is still
spawned), so a `run` record is not preceded by a `ret` record. -/
theorem cancel_delivers_before_return :
    ∃ w, (run (pureFn (fun _ => (42 : Nat))) 7 ([] : List Nat)).steps
          [Op.then_ (fun r mem => r :: mem), Op.cancel, Op.env EnvEv.deferredDelete] = some w
      ∧ w.mach.trace = [Ev.start, Ev.deleteLater, Ev.run 7]
      ∧ w.mach.mem = [7]
      ∧ w.mach.thread.status = Status.spawned
      ∧ returnedBeforeRun w.mach.trace false = false := by
  exact ⟨_, rfl, rfl, rfl, rfl, rfl⟩

/-- The same defect reached through `get`: `e.then( cb )`, then `e.get()`,
then delivery of the deferred delete that `get` posted.  The inline call has
returned 42 to the caller, but the thread of control is still spawned and the
callback is handed the never-assigned content of the result slot (7 here). -/
theorem get_after_then_delivers_never_assigned :
    ∃ w, (run (pureFn (fun _ => (42 : Nat))) 7 ([] : List Nat)).steps
          [Op.then_ (fun r mem => r :: mem), Op.get 0, Op.env EnvEv.deferredDelete] = some w
      ∧ w.mach.trace = [Ev.start, Ev.call, Ev.ret 42, Ev.deleteLater, Ev.run 7]
      ∧ w.mach.mem = [7]
      ∧ w.mach.thread.status = Status.spawned := by
  exact ⟨_, rfl, rfl, rfl, rfl⟩

/-- A `ret` record in an appended trace. -/
theorem hasRet_append {T : Type} (a b : List (Ev T)) :
    hasRet (a ++ b) = (hasRet a || hasRet b) := by
  induction a with
  | nil => simp [hasRet]
  | cons x a ih => cases x <;> simp [hasRet, ih]

/-- The order of `ret` and `run` records, over an appended trace. -/
theorem returnedBeforeRun_append {T : Type} (a b : List (Ev T)) (s : Bool) :
    returnedBeforeRun (a ++ b) s
      = (returnedBeforeRun a s && returnedBeforeRun b (s || hasRet a)) := by
  induction a generalizing s with
  | nil => simp [returnedBeforeRun, hasRet]
  | cons x a ih =>
    cases x <;> simp [returnedBeforeRun, hasRet, ih, Bool.and_assoc]

/-- The call `QThread::start()` does not touch what is posted. -/
theorem thread_start_posted (th : Thread) :
    th.start.deletePosted = th.deletePosted ∧ th.start.finishedPosted = th.finishedPosted := by
  unfold Thread.start; split <;> exact ⟨rfl, rfl⟩

/-- One step that is neither `cancel` nor a direct `run` keeps `Orderly`. -/
theorem orderly_step {M T : Type} {function : M → T × M} {w w1 : World M T}
    (hI : Orderly function w) (op : Op M T) (hc : op.isCancel = false)
    (hr : op.isRun = false) (h : w.step op = some w1) : Orderly function w1 := by
  obtain ⟨h1, h2, h3, h5, h6⟩ := hI
  cases op with
  | run r => simp [Op.isRun] at hr
  | cancel => simp [Op.isCancel] at hc
  | then_ cb =>
    simp only [World.step] at h
    split at h
    · simp at h
    · simp only [Option.some.injEq] at h
      subst h
      refine ⟨?_, ?_, h3, h5, fun _ _ => ⟨rfl, rfl⟩⟩
      · simp [World.then_, future.then_, future.start, ThreadHelper.Future, h3, Machine.start,
          returnedBeforeRun_append, returnedBeforeRun, h1]
      · simpa [World.then_, future.then_, future.start, ThreadHelper.Future, h3, Machine.start,
          hasRet_append, hasRet, thread_start_posted] using h2
  | get r0 =>
    simp only [World.step] at h
    split at h
    · simp at h
    · simp only [Option.some.injEq] at h
      subst h
      refine ⟨?_, ?_, h3, h5, h6⟩
      · simp [World.get, future.get, ThreadHelper.Future, h5, ThreadHelper.getOp, Machine.log,
          Machine.deleteLater, returnedBeforeRun_append, returnedBeforeRun, h1]
      · simp [World.get, future.get, ThreadHelper.Future, h5, ThreadHelper.getOp, Machine.log,
          Machine.deleteLater, hasRet_append, hasRet]
  | await q0 =>
    simp only [World.step] at h
    split at h
    · simp at h
    · simp only [Option.some.injEq] at h
      subst h
      refine ⟨?_, ?_, h3, h5, fun _ _ => ⟨rfl, rfl⟩⟩
      · simp [World.awaitEnter, future.awaitEnter, future.start, ThreadHelper.Future, h3,
          Machine.start, returnedBeforeRun_append, returnedBeforeRun, h1]
      · simpa [World.awaitEnter, future.awaitEnter, future.start, ThreadHelper.Future, h3,
          Machine.start, hasRet_append, hasRet, thread_start_posted] using h2
  | start =>
    simp only [World.step] at h
    split at h
    · simp at h
    · simp only [Option.some.injEq] at h
      subst h
      refine ⟨?_, ?_, h3, h5, h6⟩
      · simp [World.start, future.start, ThreadHelper.Future, h3,
          Machine.start, returnedBeforeRun_append, returnedBeforeRun, h1]
      · simpa [World.start, future.start, ThreadHelper.Future, h3,
          Machine.start, hasRet_append, hasRet, thread_start_posted] using h2
  | env e =>
    cases e with
    | enter =>
      simp only [World.step, World.env] at h
      split at h
      · simp only [Option.some.injEq] at h
        subst h
        refine ⟨?_, ?_, h3, h5, h6⟩
        · simp [Machine.log, returnedBeforeRun_append, returnedBeforeRun, h1]
        · simpa [Machine.log, hasRet_append, hasRet] using h2
      · simp at h
    | leave =>
      simp only [World.step, World.env] at h
      split at h
      · simp only [Option.some.injEq] at h
        subst h
        refine ⟨?_, ?_, h3, h5, h6⟩
        · simp [ThreadHelper.run, Machine.log, returnedBeforeRun_append, returnedBeforeRun, h1]
        · simp [ThreadHelper.run, Machine.log, hasRet_append, hasRet]
      · simp at h
    | finished =>
      simp only [World.step, World.env] at h
      split at h
      · rename_i hd
        simp only [Option.some.injEq] at h
        subst h
        have hret := h2 (Or.inr hd.2)
        refine ⟨?_, ?_, h3, h5, h6⟩
        · simp [Machine.deleteLater, returnedBeforeRun_append, returnedBeforeRun, h1]
        · simp [Machine.deleteLater, hasRet_append, hret]
      · simp at h
    | deferredDelete =>
      simp only [World.step, World.env] at h
      split at h
      · rename_i hd
        simp only [Option.some.injEq] at h
        subst h
        have hret := h2 (Or.inl hd.2)
        refine ⟨?_, ?_, h3, h5, h6⟩
        · simp [ThreadHelper.destroy, future.run, (h6 _ _).1, Machine.log,
            returnedBeforeRun_append, returnedBeforeRun, h1, hret]
        · simp [ThreadHelper.destroy, future.run, (h6 _ _).1, Machine.log,
            hasRet_append, hret]
      · simp at h

/-- In every execution without `cancel` (and without direct calls of `run`)
every `run` record comes after a `ret` record.  The `ret` record may be the
one of the inline call made by `get`; what the continuation is handed then is
shown by `get_after_then_delivers_never_assigned`. -/
theorem no_cancel_no_early_run {M T : Type} (function : M → T × M) (uninit : T) (mem : M)
    (ops : List (Op M T)) (hops : ∀ op ∈ ops, op.isCancel = false ∧ op.isRun = false)
    (w : World M T) (hw : (run function uninit mem).steps ops = some w) :
    returnedBeforeRun w.mach.trace false = true := by
  have key : ∀ (ops : List (Op M T)), (∀ op ∈ ops, op.isCancel = false ∧ op.isRun = false) →
      ∀ (w0 w1 : World M T), Orderly function w0 → w0.steps ops = some w1 →
        Orderly function w1 := by
    intro ops
    induction ops with
    | nil =>
      intro _ w0 w1 hI h
      simp only [World.steps, Option.some.injEq] at h
      subst h
      exact hI
    | cons op ops ih =>
      intro hops w0 w1 hI h
      simp only [World.steps] at h
      cases h2 : w0.step op with
      | none => simp [h2] at h
      | some w2 =>
        rw [h2] at h
        have hop := hops op (List.mem_cons_self _ _)
        exact ih (fun o ho => hops o (List.mem_cons_of_mem _ ho)) w2 w1
          (orderly_step hI op hop.1 hop.2 h2) h
  have h0 : Orderly function (run function uninit mem) :=
    ⟨rfl, by simp [run, Thread.new], rfl, rfl, fun _ _ => ⟨rfl, rfl⟩⟩
  exact (key ops hops _ w h0 hw).ordered

/-! ### The specialisation against the generic variant at the unit type -/

/-- Corresponding machines stay so when a record is appended. -/
theorem msim_log {M : Type} {m : Machine M Unit} {v : Void.Machine M} (h : MSim m v)
    (e : Ev Unit) : MSim (m.log e) (v.log e.erase) := by
  obtain ⟨h1, h2, h3, h4⟩ := h
  exact ⟨h1, h2, h3, by simp [Machine.log, Void.Machine.log, h4]⟩

/-- Corresponding machines stay so under `this->start()`. -/
theorem msim_start {M : Type} {m : Machine M Unit} {v : Void.Machine M} (h : MSim m v) :
    MSim m.start v.start := by
  obtain ⟨h1, h2, h3, h4⟩ := h
  exact ⟨h1, by simp [Machine.start, Void.Machine.start, h2], h3,
    by simp [Machine.start, Void.Machine.start, h4, Ev.erase]⟩

/-- Corresponding machines stay so under `this->deleteLater()`. -/
theorem msim_deleteLater {M : Type} {m : Machine M Unit} {v : Void.Machine M} (h : MSim m v) :
    MSim m.deleteLater v.deleteLater := by
  obtain ⟨h1, h2, h3, h4⟩ := h
  exact ⟨h1, by simp [Machine.deleteLater, Void.Machine.deleteLater, h2], h3,
    by simp [Machine.deleteLater, Void.Machine.deleteLater, h4, Ev.erase]⟩

/-- The injected get operations of the two variants act alike. -/
theorem msim_getOp {M : Type} (fn : M → M) {m : Machine M Unit} {v : Void.Machine M}
    (h : MSim m v) :
    MSim (ThreadHelper.getOp (unitFn fn) () m).2 (Void.ThreadHelper.getOp fn v) := by
  obtain ⟨h1, h2, h3, h4⟩ := h
  refine ⟨?_, ?_, ?_, ?_⟩ <;>
    simp [ThreadHelper.getOp, Void.ThreadHelper.getOp, Machine.log, Void.Machine.log,
      Machine.deleteLater, Void.Machine.deleteLater, unitFn, h1, h2, h3, h4, Ev.erase]

/-- Freshly created workers of the two variants correspond. -/
theorem wsim_fresh {M : Type} (fn : M → M) (mem : M) :
    WSim (run (unitFn fn) () mem) (Void.run fn mem) where
  mach := ⟨rfl, rfl, rfl, rfl⟩
  fn := fun _ => rfl
  cont := fun _ _ h => h
  start := fun _ _ h => msim_start h
  cancel := fun _ _ h => msim_deleteLater h
  get := fun _ _ h => msim_getOp fn h

/-- Corresponding worlds take the same steps of the environment. -/
theorem wsim_env {M : Type} {w : World M Unit} {v : Void.World M} (h : WSim w v) (e : EnvEv) :
    (w.env e = none ∧ v.env e = none)
    ∨ ∃ w1 v1, w.env e = some w1 ∧ v.env e = some v1 ∧ WSim w1 v1 := by
  obtain ⟨⟨h1, h2, h3, h4⟩, hf, hc, hs, hx, hg⟩ := h
  cases e with
  | enter =>
    simp only [World.env, Void.World.env, h2]
    split
    · right
      refine ⟨_, _, rfl, rfl, ⟨⟨h1, ?_, h3, ?_⟩, hf, hc, hs, hx, hg⟩⟩
      · simp [Machine.log, Void.Machine.log, h2]
      · simp [Machine.log, Void.Machine.log, h4, Ev.erase]
    · left; exact ⟨rfl, rfl⟩
  | leave =>
    simp only [World.env, Void.World.env, h2]
    split
    · right
      refine ⟨_, _, rfl, rfl, ⟨⟨?_, ?_, h3, ?_⟩, hf, hc, hs, hx, hg⟩⟩
      · simp [ThreadHelper.run, Void.ThreadHelper.run, Machine.log, Void.Machine.log, h1, hf]
      · simp [ThreadHelper.run, Void.ThreadHelper.run, Machine.log, Void.Machine.log, h2]
      · simp [ThreadHelper.run, Void.ThreadHelper.run, Machine.log, Void.Machine.log, h4,
          Ev.erase]
    · left; exact ⟨rfl, rfl⟩
  | finished =>
    simp only [World.env, Void.World.env, h2]
    split
    · right
      refine ⟨_, _, rfl, rfl, ⟨⟨h1, ?_, h3, ?_⟩, hf, hc, hs, hx, hg⟩⟩
      · simp [Machine.deleteLater, Void.Machine.deleteLater, h2]
      · simp [Machine.deleteLater, Void.Machine.deleteLater, h4, Ev.erase]
    · left; exact ⟨rfl, rfl⟩
  | deferredDelete =>
    simp only [World.env, Void.World.env, h2]
    split
    · right
      have hm : MSim (w.obj.m_future.run w.obj.m_result w.mach) (v.obj.m_future.run v.mach) :=
        hc _ _ (msim_log ⟨h1, h2, h3, h4⟩ (Ev.run w.obj.m_result))
      obtain ⟨k1, k2, k3, k4⟩ := hm
      refine ⟨_, _, rfl, rfl, ⟨⟨k1, ?_, k3, k4⟩, hf, hc, hs, hx, hg⟩⟩
      simp [ThreadHelper.destroy, Void.ThreadHelper.destroy, k2]
    · left; exact ⟨rfl, rfl⟩

/-- Corresponding worlds stay so when `await` is entered. -/
theorem wsim_awaitEnter {M : Type} {w : World M Unit} {v : Void.World M} (h : WSim w v) :
    WSim (w.awaitEnter ()) v.awaitEnter := by
  obtain ⟨hm, hf, hc, hs, hx, hg⟩ := h
  refine ⟨hs _ _ ⟨hm.mem, hm.thread, rfl, hm.trace⟩, hf, ?_, hs, hx, hg⟩
  intro m mv hmm
  obtain ⟨k1, k2, k3, k4⟩ := hmm
  refine ⟨k1, k2, ?_, k4⟩
  simp [World.awaitEnter, Void.World.awaitEnter, future.awaitEnter, Void.future.awaitEnter,
    ThreadHelper.Future, Void.ThreadHelper.Future, awaitContinuation,
    Void.awaitContinuation, k3, Function.comp_def]

/-- Corresponding worlds take the same steps. -/
theorem wsim_step {M : Type} {w : World M Unit} {v : Void.World M} (h : WSim w v)
    (op : Void.Op M) :
    (w.step op.toUnit = none ∧ v.step op = none)
    ∨ ∃ w1 v1, w.step op.toUnit = some w1 ∧ v.step op = some v1 ∧ WSim w1 v1 := by
  cases op with
  | env e => exact wsim_env h e
  | then_ cb =>
    obtain ⟨hm, hf, hc, hs, hx, hg⟩ := h
    simp only [Void.Op.toUnit, World.step, Void.World.step, hm.thread]
    split
    · left; exact ⟨rfl, rfl⟩
    · right
      refine ⟨_, _, rfl, rfl, ⟨hs _ _ hm, hf, ?_, hs, hx, hg⟩⟩
      intro m mv hmm
      obtain ⟨k1, k2, k3, k4⟩ := hmm
      exact ⟨by simp [World.then_, Void.World.then_, future.then_, Void.future.then_,
        ThreadHelper.Future, Void.ThreadHelper.Future, onMem, Void.onMem, k1], k2, k3, k4⟩
  | get =>
    obtain ⟨hm, hf, hc, hs, hx, hg⟩ := h
    simp only [Void.Op.toUnit, World.step, Void.World.step, hm.thread]
    split
    · left; exact ⟨rfl, rfl⟩
    · right
      exact ⟨_, _, rfl, rfl, ⟨hg _ _ hm, hf, hc, hs, hx, hg⟩⟩
  | await =>
    simp only [Void.Op.toUnit, World.step, Void.World.step, h.mach.thread]
    split
    · left; exact ⟨rfl, rfl⟩
    · right
      exact ⟨_, _, rfl, rfl, wsim_awaitEnter h⟩
  | start =>
    obtain ⟨hm, hf, hc, hs, hx, hg⟩ := h
    simp only [Void.Op.toUnit, World.step, Void.World.step, hm.thread]
    split
    · left; exact ⟨rfl, rfl⟩
    · right
      exact ⟨_, _, rfl, rfl, ⟨hs _ _ hm, hf, hc, hs, hx, hg⟩⟩
  | cancel =>
    obtain ⟨hm, hf, hc, hs, hx, hg⟩ := h
    simp only [Void.Op.toUnit, World.step, Void.World.step, hm.thread]
    split
    · left; exact ⟨rfl, rfl⟩
    · right
      exact ⟨_, _, rfl, rfl, ⟨hx _ _ hm, hf, hc, hs, hx, hg⟩⟩
  | run =>
    obtain ⟨hm, hf, hc, hs, hx, hg⟩ := h
    simp only [Void.Op.toUnit, World.step, Void.World.step, hm.thread]
    split
    · left; exact ⟨rfl, rfl⟩
    · right
      exact ⟨_, _, rfl, rfl, ⟨hc _ _ (msim_log hm (Ev.run ())), hf, hc, hs, hx, hg⟩⟩

/-- Corresponding worlds run the same executions. -/
theorem wsim_steps {M : Type} (ops : List (Void.Op M)) :
    ∀ {w : World M Unit} {v : Void.World M}, WSim w v →
      (w.steps (ops.map Void.Op.toUnit) = none ∧ v.steps ops = none)
      ∨ ∃ w1 v1, w.steps (ops.map Void.Op.toUnit) = some w1 ∧ v.steps ops = some v1
          ∧ WSim w1 v1 := by
  induction ops with
  | nil =>
    intro w v h
    exact Or.inr ⟨w, v, rfl, rfl, h⟩
  | cons op ops ih =>
    intro w v h
    simp only [World.steps, Void.World.steps, List.map_cons]
    rcases wsim_step h op with ⟨e1, e2⟩ | ⟨w1, v1, e1, e2, hs⟩
    · rw [e1, e2]; exact Or.inl ⟨rfl, rfl⟩
    · rw [e1, e2]
      exact ih hs

/-- Corresponding worlds take the same scheduled step of the environment. -/
theorem wsim_envNext {M : Type} {w : World M Unit} {v : Void.World M} (h : WSim w v) :
    (w.envNext = none ∧ v.envNext = none)
    ∨ ∃ w1 v1, w.envNext = some w1 ∧ v.envNext = some v1 ∧ WSim w1 v1 := by
  unfold World.envNext Void.World.envNext
  rw [h.mach.thread]
  rcases wsim_env h EnvEv.deferredDelete with ⟨d1, d2⟩ | ⟨wd, vd, d1, d2, hd⟩ <;>
    rcases wsim_env h EnvEv.finished with ⟨g1, g2⟩ | ⟨wf, vf, g1, g2, hf⟩ <;>
    rcases wsim_env h EnvEv.leave with ⟨f1, f2⟩ | ⟨wl, vl, f1, f2, hl⟩ <;>
    rcases wsim_env h EnvEv.enter with ⟨e1, e2⟩ | ⟨we, ve, e1, e2, he⟩ <;>
    rw [d1, d2, g1, g2, f1, f2, e1, e2] <;>
    by_cases hx : w.mach.thread.deleteFirst = true <;>
    simp only [hx, if_true, if_false, Option.orElse, Bool.false_eq_true] <;>
    first
      | exact Or.inl ⟨trivial, trivial⟩
      | exact Or.inl ⟨rfl, rfl⟩
      | exact Or.inr ⟨_, _, rfl, rfl, hd⟩
      | exact Or.inr ⟨_, _, rfl, rfl, hf⟩
      | exact Or.inr ⟨_, _, rfl, rfl, hl⟩
      | exact Or.inr ⟨_, _, rfl, rfl, he⟩

/-- The local loops of the two variants of `await` run alike. -/
theorem wsim_exec {M : Type} (fuel : Nat) :
    ∀ {w : World M Unit} {v : Void.World M}, WSim w v →
      (QEventLoop.exec fuel w = none ∧ Void.loopExec fuel v = none)
      ∨ ∃ w1 v1, QEventLoop.exec fuel w = some w1 ∧ Void.loopExec fuel v = some v1
          ∧ WSim w1 v1 := by
  induction fuel with
  | zero => intro w v _; exact Or.inl ⟨rfl, rfl⟩
  | succ n ih =>
    intro w v h
    have hfr := h.mach.frame
    simp only [QEventLoop.exec, Void.loopExec]
    cases hw : w.mach.frame with
    | none =>
      rw [hw] at hfr
      simp only [Option.map_none'] at hfr
      rw [hfr]
      exact Or.inl ⟨rfl, rfl⟩
    | some fr =>
      rw [hw] at hfr
      simp only [Option.map_some'] at hfr
      rw [hfr]
      simp only
      by_cases hex : fr.p.exited = true
      · simp only [hex, if_true]
        exact Or.inr ⟨w, v, rfl, rfl, h⟩
      · simp only [hex, if_false]
        rcases wsim_envNext h with ⟨e1, e2⟩ | ⟨w1, v1, e1, e2, hs⟩
        · rw [e1, e2]; exact Or.inl ⟨rfl, rfl⟩
        · rw [e1, e2]; exact ih hs

/-- Corresponding worlds show the same. -/
theorem wsim_observe {M : Type} {w : World M Unit} {v : Void.World M} (h : WSim w v) :
    v.observe = w.observe := by
  obtain ⟨⟨h1, h2, h3, h4⟩, -⟩ := h
  simp [World.observe, Void.World.observe, h1, h2, h3, h4]

/-- The two variants of `await` return alike. -/
theorem wsim_await {M : Type} {w : World M Unit} {v : Void.World M} (h : WSim w v)
    (fuel : Nat) :
    (v.await fuel).map Void.World.observe
      = (w.await () fuel).map (fun res => res.2.observe) := by
  simp only [World.await, Void.World.await]
  rcases wsim_exec fuel (wsim_awaitEnter h) with ⟨e1, e2⟩ | ⟨w1, v1, e1, e2, hs⟩
  · rw [e1, e2]; rfl
  · rw [e1, e2]
    have hfr := hs.mach.frame
    obtain ⟨⟨h1, h2, h3, h4⟩, -⟩ := hs
    cases hw : w1.mach.frame with
    | none =>
      rw [hw] at hfr
      simp only [Option.map_none'] at hfr
      simp [hfr, hw]
    | some fr =>
      rw [hw] at hfr
      simp only [Option.map_some'] at hfr
      simp [hfr, hw, World.observe, Void.World.observe, h1, h2, h4]

/-- C7: the specialisation `future< void >` / `ThreadHelper< void >` behaves
exactly like the generic `future<T>` / `ThreadHelper<T>` at the unit type.
For every task function and every sequence of operations (`get`, `then`,
`await`, `start`, `cancel`, `run` and the steps of the environment) either
both executions are undefined or both are defined and show the same: the
same trace of task-function invocations and returns, continuation
invocations, start triggers and release requests, the same memory, the same
Qt state of the worker and the same state of the local loop.  The same holds
for a complete `await`, local loop included, issued after any such
sequence. -/
theorem void_parity {M : Type} (fn : M → M) (mem : M) (ops : List (Void.Op M)) (fuel : Nat) :
    ((Void.run fn mem).steps ops).map Void.World.observe
        = ((run (unitFn fn) () mem).steps (ops.map Void.Op.toUnit)).map World.observe
    ∧ (((Void.run fn mem).steps ops).bind (fun v => v.await fuel)).map Void.World.observe
        = (((run (unitFn fn) () mem).steps (ops.map Void.Op.toUnit)).bind
            (fun w => w.await () fuel)).map (fun res => res.2.observe) := by
  rcases wsim_steps ops (wsim_fresh fn mem) with ⟨e1, e2⟩ | ⟨w1, v1, e1, e2, hs⟩
  · rw [e1, e2]; exact ⟨rfl, rfl⟩
  · rw [e1, e2]
    exact ⟨by simp [wsim_observe hs], by simpa using wsim_await hs fuel⟩

end Task
